import Mathlib

/-!
Shallow embedding of `src/handler.py` (RunPod serverless TTS handler).

Strings are modelled as `List Char` (Unicode scalar values).  Helper `str`
converts a Lean string literal to that representation.

External collaborators are modelled as follows:
* `unicodedata.normalize("NFKC", ·)` is modelled character-wise
  (`nfkcChar`): identity on ASCII, plus the Unicode space-separator
  compatibility mappings to U+0020 and the fullwidth quotation mark
  U+FF02 → U+0022.  Being character-wise, the model drops canonical
  composition/decomposition and multi-character compatibility mappings, so
  it agrees with Unicode only character set by character set; every
  universally quantified theorem whose truth depends on NFKC confines its
  hypothesis to a repertoire on which the character-wise model is exact
  (ASCII for C3, the whitespace/stripped-control set for C4), and every
  concrete input evaluated is ASCII.
* `json.loads` applied to a JSON string literal is implemented directly
  (`jsonLoads`), including `\uXXXX` escapes and surrogate pairs; lone
  surrogates (which CPython would keep) are rejected since a Lean `Char`
  cannot hold them — no claim here depends on lone surrogates.
* pydub's `AudioSegment` is modelled by its frame rate and frame count
  (`AudioSeg`); channels and sample width are omitted (all segments here are
  mono and width conversions bear on no claim).  `silent` uses pydub's
  default `frame_rate=11025`, `empty` has frame rate 1, and `+` (append with
  zero crossfade) syncs both operands to the maximum frame rate, converting
  the other side (`setRate`), exactly as `AudioSegment._sync` does.
* the Chatterbox model, the network fetch, and the MP3 export are oracles
  (`Oracles`), each able to fail as the real call can raise.
-/

def str (s : String) : List Char := s.data

/-- Python whitespace (the set matched by `str.strip()` and by `\s` in `re`
patterns over `str`): ASCII whitespace, the C0 separators U+001C–U+001F,
NEL U+0085, NBSP U+00A0, and the Unicode space separators. -/
def isPyWs (c : Char) : Bool :=
  decide (c.toNat = 32 ∨ (9 ≤ c.toNat ∧ c.toNat ≤ 13) ∨
    (28 ≤ c.toNat ∧ c.toNat ≤ 31) ∨ c.toNat = 133 ∨ c.toNat = 160 ∨
    c.toNat = 5760 ∨ (8192 ≤ c.toNat ∧ c.toNat ≤ 8202) ∨
    c.toNat = 8232 ∨ c.toNat = 8233 ∨ c.toNat = 8239 ∨ c.toNat = 8287 ∨
    c.toNat = 12288)

/-- Left trim: drop leading Python whitespace. -/
def trimL (s : List Char) : List Char := s.dropWhile isPyWs

/-- Right trim: drop trailing Python whitespace. -/
def trimR : List Char → List Char
  | [] => []
  | c :: cs =>
    match trimR cs with
    | [] => if isPyWs c then [] else [c]
    | r => c :: r

/-- Python `str.strip()`. -/
def pyStrip (s : List Char) : List Char := trimR (trimL s)

/-- Characters removed by `re.sub(r"[\x00-\x08\x0b\x0c\x0e-\x1f\x7f]", "", ·)`
(handler.py line 63): C0 controls except TAB/LF/CR, and DEL. -/
def isCtl (c : Char) : Bool :=
  decide (c.toNat ≤ 8 ∨ c.toNat = 11 ∨ c.toNat = 12 ∨
    (14 ≤ c.toNat ∧ c.toNat ≤ 31) ∨ c.toNat = 127)

/-- ASCII character (code point below 128); on ASCII the character-wise
NFKC model coincides with Unicode NFKC, which is the identity there. -/
def isAsciiCh (c : Char) : Bool := decide (c.toNat < 128)

/-- Control-character stripping step of `_sanitise_text` (line 63). -/
def stripCtl (s : List Char) : List Char := s.filter (fun c => !isCtl c)

/-- Character-wise model of `unicodedata.normalize("NFKC", ·)` (line 61):
identity on ASCII; the space-separator compatibility mappings to U+0020
and the fullwidth quotation mark U+FF02 → U+0022 are included.  Being
character-wise, the model drops canonical composition — a base letter
followed by a combining mark is left uncomposed where real NFKC composes
it — so it is faithful only on repertoires free of composition and of
multi-character mappings (such as ASCII); theorems quantifying over all
strings keep their NFKC-sensitive hypotheses inside such a repertoire. -/
def nfkcChar (c : Char) : Char :=
  if c.toNat = 160 ∨ (8192 ≤ c.toNat ∧ c.toNat ≤ 8202) ∨
      c.toNat = 8239 ∨ c.toNat = 8287 ∨ c.toNat = 12288 then ' '
  else if c.toNat = 65282 then '"'
  else c

/-- Unicode canonicalization step of `_sanitise_text` (line 61). -/
def nfkc (s : List Char) : List Char := s.map nfkcChar

/-- Whitespace-run collapsing: the flag records whether the previous input
character was whitespace.  `collapseAux false` equals
`re.sub(r"\s+", " ", ·)` (line 65): every maximal whitespace run becomes one
space. -/
def collapseAux : Bool → List Char → List Char
  | _, [] => []
  | prevWs, c :: cs =>
    if isPyWs c then
      if prevWs then collapseAux true cs else ' ' :: collapseAux true cs
    else c :: collapseAux false cs

/-- Whitespace collapsing step of `_sanitise_text` (line 65):
`re.sub(r"\s+", " ", text).strip()`. -/
def collapseWs (s : List Char) : List Char := pyStrip (collapseAux false s)

/-- JSON whitespace (the only characters `json.loads` skips around a value). -/
def isJsonWs (c : Char) : Bool :=
  decide (c.toNat = 32 ∨ c.toNat = 9 ∨ c.toNat = 10 ∨ c.toNat = 13)

/-- Hexadecimal digit value, if any. -/
def hexVal (c : Char) : Option Nat :=
  if 48 ≤ c.toNat ∧ c.toNat ≤ 57 then some (c.toNat - 48)
  else if 97 ≤ c.toNat ∧ c.toNat ≤ 102 then some (c.toNat - 87)
  else if 65 ≤ c.toNat ∧ c.toNat ≤ 70 then some (c.toNat - 55)
  else none

/-- Body of a JSON string literal, after the opening quote: returns the
decoded content provided the closing quote is followed by JSON whitespace
only (as `json.loads` demands of a full document).  Fuelled recursion; each
step consumes at least one input character, so fuel `input.length + 1`
always suffices.  Unescaped controls below U+0020 are rejected (strict
mode); lone surrogates are rejected (see module comment). -/
def jsBody : Nat → List Char → List Char → Option (List Char)
  | 0, _, _ => none
  | _ + 1, _, [] => none
  | fuel + 1, acc, c :: rest =>
    if c = '"' then (if rest.all isJsonWs then some acc.reverse else none)
    else if c = '\\' then
      match rest with
      | '"' :: r => jsBody fuel ('"' :: acc) r
      | '\\' :: r => jsBody fuel ('\\' :: acc) r
      | '/' :: r => jsBody fuel ('/' :: acc) r
      | 'b' :: r => jsBody fuel ('\x08' :: acc) r
      | 'f' :: r => jsBody fuel ('\x0c' :: acc) r
      | 'n' :: r => jsBody fuel ('\n' :: acc) r
      | 'r' :: r => jsBody fuel ('\x0d' :: acc) r
      | 't' :: r => jsBody fuel ('\t' :: acc) r
      | 'u' :: h1 :: h2 :: h3 :: h4 :: r =>
        match hexVal h1, hexVal h2, hexVal h3, hexVal h4 with
        | some x1, some x2, some x3, some x4 =>
          let n := ((x1 * 16 + x2) * 16 + x3) * 16 + x4
          if h : n < 55296 then jsBody fuel (Char.ofNatAux n (by omega) :: acc) r
          else if n ≥ 57344 then jsBody fuel (Char.ofNat n :: acc) r
          else if n ≤ 56319 then
            match r with
            | '\\' :: 'u' :: g1 :: g2 :: g3 :: g4 :: r2 =>
              match hexVal g1, hexVal g2, hexVal g3, hexVal g4 with
              | some y1, some y2, some y3, some y4 =>
                let m := ((y1 * 16 + y2) * 16 + y3) * 16 + y4
                if 56320 ≤ m ∧ m ≤ 57343 then
                  jsBody fuel
                    (Char.ofNat (65536 + (n - 55296) * 1024 + (m - 56320)) :: acc) r2
                else none
              | _, _, _, _ => none
            | _ => none
          else none
        | _, _, _, _ => none
      | _ => none
    else if c.toNat < 32 then none
    else jsBody fuel (c :: acc) rest

/-- Model of `json.loads` restricted to documents whose value is a string
literal (the only shape reachable from `_sanitise_text`, which guards on a
leading quote); any other document yields `none`, as the Python call would
raise and be swallowed. -/
def jsonLoads (s : List Char) : Option (List Char) :=
  match s.dropWhile isJsonWs with
  | '"' :: rest => jsBody (rest.length + 1) [] rest
  | _ => none

/-- Python `stripped.startswith('"') and stripped.endswith('"')`
(line 53); on the empty string both are false, and a single `"` satisfies
both. -/
def quoteWrapped : List Char → Bool
  | [] => false
  | c :: cs => c = '"' && (c :: cs).getLast (by simp) = '"'

/-- Double-encoding unwrap step of `_sanitise_text` (lines 52–58): if the
stripped text is quote-wrapped, try to parse it as a JSON string literal;
on success the decoded value replaces the (original, unstripped) text, on
failure the text is left unchanged. -/
def unwrapStep (s : List Char) : List Char :=
  let stripped := pyStrip s
  if quoteWrapped stripped then
    match jsonLoads stripped with
    | some decoded => decoded
    | none => s
  else s

/-- Model of `_sanitise_text` (handler.py lines 49–66). -/
def sanitiseText (s : List Char) : List Char :=
  collapseWs (stripCtl (nfkc (unwrapStep s)))

/-- ASCII decimal digit, the character class `\d` of the pause-marker
pattern.  (Over `str` patterns Python's `\d` also matches non-ASCII decimal
digits; the model is restricted to ASCII, which covers every string analysed
here.) -/
def isDigitCh (c : Char) : Bool := decide (48 ≤ c.toNat ∧ c.toNat ≤ 57)

/-- Attempt to match the regex `\[pause:(\d+(?:\.\d+)?)\]` at the head of the
input; on success return the captured numeric string and the remaining
input.  Greedy `\d+` equals maximal munch here because the character after
the digit run is constrained to be `]` or `.`. -/
def scanPause (s : List Char) : Option (List Char × List Char) :=
  match s with
  | '[' :: 'p' :: 'a' :: 'u' :: 's' :: 'e' :: ':' :: rest =>
    if rest.takeWhile isDigitCh = [] then none
    else
      match rest.dropWhile isDigitCh with
      | ']' :: r2 => some (rest.takeWhile isDigitCh, r2)
      | '.' :: r2 =>
        if r2.takeWhile isDigitCh = [] then none
        else
          match r2.dropWhile isDigitCh with
          | ']' :: r4 =>
            some (rest.takeWhile isDigitCh ++ '.' :: r2.takeWhile isDigitCh, r4)
          | _ => none
      | _ => none
  | _ => none

/-- Scanner behind `re.split(r"\[pause:(\d+(?:\.\d+)?)\]", text)`
(handler.py line 117): walk the text left to right; at each position either
the pattern matches (emit the literal run accumulated so far and the
capture, continue after the match) or advance one character.  `acc` holds
the current literal run, reversed.  The `Nat` argument is fuel making the
recursion structural; every step consumes at least one input character, so
fuel `s.length` always suffices (`splitAux_fuel_irrel`), and the fuel-zero
fallback is never reached from `splitParts`. -/
def splitAux : Nat → List Char → List Char → List (List Char)
  | _, acc, [] => [acc.reverse]
  | 0, acc, s => [acc.reverse ++ s]
  | fuel + 1, acc, c :: cs =>
    match scanPause (c :: cs) with
    | some (cap, rest) => acc.reverse :: cap :: splitAux fuel [] rest
    | none => splitAux fuel (c :: acc) cs

/-- Result of `re.split(r"\[pause:(\d+(?:\.\d+)?)\]", text)`: the list
alternates literal runs (even positions) and captured marker values (odd
positions). -/
def splitParts (s : List Char) : List (List Char) := splitAux s.length [] s

/-- Numeric value of an ASCII digit run. -/
def digitsToNat (ds : List Char) : Nat :=
  ds.foldl (fun n c => n * 10 + (c.toNat - 48)) 0

/-- Number of binary digits, by fuelled halving (fuel `n` always
suffices, since the value halves at every step). -/
def bitLenAux : Nat → Nat → Nat
  | 0, _ => 0
  | fuel + 1, n => if n = 0 then 0 else bitLenAux fuel (n / 2) + 1

/-- Number of binary digits of `n` (0 for 0). -/
def bitLen (n : Nat) : Nat := bitLenAux n n

/-- Whether `(n / d) * 2 ^ s` reaches `2 ^ 52` (`n`, `d` positive; `s` may
be negative). -/
def shiftReach (n d : Nat) (s : Int) : Bool :=
  if 0 ≤ s then 2 ^ 52 * d ≤ n * 2 ^ s.toNat
  else 2 ^ 52 * d * 2 ^ (-s).toNat ≤ n

/-- Round the positive rational `n / d` to 53 significant bits with IEEE
round-to-nearest, ties-to-even: returns `(m, e)` with the rounded value
equal to `m * 2 ^ e` and `2 ^ 52 ≤ m ≤ 2 ^ 53`.  This is the exact value of
the binary64 floating-point result for operands in the normal range (the
only range reachable from pause captures of sane size).  The shift `s`
is the least integer for which the scaled ratio reaches `2 ^ 52`; by the
bit-length bounds it is `s0` or `s0 + 1`. -/
def round53 (n d : Nat) : Nat × Int :=
  let s0 : Int := (52 + bitLen d : Int) - (bitLen n : Int)
  let s : Int := if shiftReach n d s0 then s0 else s0 + 1
  let N := if 0 ≤ s then n * 2 ^ s.toNat else n
  let D := if 0 ≤ s then d else d * 2 ^ (-s).toNat
  let m0 := N / D
  let r := N % D
  let m :=
    if D < 2 * r then m0 + 1
    else if 2 * r < D then m0
    else if m0 % 2 = 0 then m0 else m0 + 1
  (m, -s)

/-- Truncate `m * 2 ^ e` toward zero (non-negative operand). -/
def truncPow2 (m : Nat) (e : Int) : Nat :=
  if 0 ≤ e then m * 2 ^ e.toNat else m / 2 ^ (-e).toNat

/-- Milliseconds of a captured marker value: `int(float(cap) * 1000)`
(line 130), modelled bit-exactly — correctly rounded decimal→binary64
conversion (CPython's `float` on the capture `\d+(\.\d+)?`), correctly
rounded binary64 multiplication by 1000, then truncation toward zero
(`int`).  Exponent-range effects (overflow, subnormals) are not modelled:
reaching them would take captures of about 300 digits. -/
def msOfCap (cap : List Char) : Nat :=
  let intPart := cap.takeWhile isDigitCh
  let rest := cap.dropWhile isDigitCh
  let frac := match rest with
    | '.' :: f => f
    | _ => []
  let n := digitsToNat (intPart ++ frac)
  if n = 0 then 0
  else
    let f1 := round53 n (10 ^ frac.length)
    let f2 :=
      if 0 ≤ f1.2 then round53 (f1.1 * 1000 * 2 ^ f1.2.toNat) 1
      else round53 (f1.1 * 1000) (2 ^ (-f1.2).toNat)
    truncPow2 f2.1 f2.2

/-- The conversion as the spec words it — the exact decimal value × 1000
truncated to an integer (integer part × 1000 plus the first three
fractional digits).  Stated from the spec, to be compared with `msOfCap`,
the source's floating-point computation. -/
def msOfCapSpec (cap : List Char) : Nat :=
  let intPart := cap.takeWhile isDigitCh
  let rest := cap.dropWhile isDigitCh
  let frac := match rest with
    | '.' :: f => f
    | _ => []
  digitsToNat intPart * 1000 + digitsToNat ((frac ++ ['0', '0', '0']).take 3)

/-- One unit of the segment plan: a speakable text run or a silence
duration in milliseconds. -/
inductive SegUnit where
  | text (content : List Char)
  | silence (ms : Nat)
deriving DecidableEq, Repr

/-- Unit decisions of the handler's assembly loop (lines 120–134), reified
as a list: the loop walks the split parts pairwise, keeping each literal
run stripped when non-empty and converting each capture to milliseconds. -/
def planGo : List (List Char) → List SegUnit
  | [] => []
  | [t] => if pyStrip t = [] then [] else [SegUnit.text (pyStrip t)]
  | t :: d :: rest =>
    (if pyStrip t = [] then [] else [SegUnit.text (pyStrip t)]) ++
      SegUnit.silence (msOfCap d) :: planGo rest

/-- Segment plan of a text: unit decisions of the assembly loop applied to
the pause-marker split. -/
def segmentPlan (s : List Char) : List SegUnit := planGo (splitParts s)

/-- Declarative reading of the planner, following positions: parts at even
positions are literal runs (trimmed, kept only if non-empty), parts at odd
positions are captured marker values (converted to milliseconds). -/
def planPos : Nat → List (List Char) → List SegUnit
  | _, [] => []
  | i, p :: ps =>
    (if i % 2 = 0 then
      (if pyStrip p = [] then [] else [SegUnit.text (pyStrip p)])
     else [SegUnit.silence (msOfCap p)]) ++ planPos (i + 1) ps

/-- Observable side effects of one request, in order of occurrence. -/
inductive Ev where
  | tempCreate
  | fetchTry (url : List Char)
  | tempDelete
  | encodeMp3
  | synthCall (txt : List Char) (prm : Option Unit)
  | mkSilence (rate ms : Nat)
  | resample (src dst : Nat)
deriving DecidableEq, Repr

/-- In-memory audio buffer: frame (sample) rate in Hz and frame count.
Models pydub's `AudioSegment` restricted to the fields the claims concern
(all segments in this pipeline are mono; sample width bears on no claim). -/
structure AudioSeg where
  frameRate : Nat
  frames : Nat
deriving DecidableEq, Repr

/-- pydub `AudioSegment.empty()`: zero frames at frame rate 1. -/
def pdEmpty : AudioSeg := ⟨1, 0⟩

/-- Default frame rate of pydub `AudioSegment.silent` (its `frame_rate`
keyword parameter, which handler.py line 131 does not pass). -/
def silentRate : Nat := 11025

/-- pydub `AudioSegment.silent(duration=ms)` as called on line 131: a silent
segment of `rate * ms / 1000` frames at the default rate 11025 Hz. -/
def pdSilent (ms : Nat) : AudioSeg := ⟨silentRate, silentRate * ms / 1000⟩

/-- pydub `set_frame_rate`: identity when the rate already matches,
otherwise a rate conversion preserving duration.  Also returns the
conversion event performed, if any. -/
def setRate (a : AudioSeg) (r : Nat) : AudioSeg × List Ev :=
  if a.frameRate = r then (a, [])
  else (⟨r, a.frames * r / a.frameRate⟩, [Ev.resample a.frameRate r])

/-- pydub `+` (append with zero crossfade): `_sync` both operands to the
maximum frame rate, then concatenate the frame data. -/
def pdAppend (a b : AudioSeg) : AudioSeg × List Ev :=
  let m := max a.frameRate b.frameRate
  let a2 := setRate a m
  let b2 := setRate b m
  (⟨m, a2.1.frames + b2.1.frames⟩, a2.2 ++ b2.2)

/-- External collaborators of the handler, as oracles: the network fetch
(`urllib.request.urlretrieve`, may raise), the synthesis model
(`model.generate` + WAV round-trip, yielding a frame count at the model's
native rate, may raise), the MP3 export (may raise), and the model's native
sample rate `model.sr` (24000 for ChatterboxTTS). -/
structure Oracles where
  fetch : List Char → Except Nat Unit
  synth : List Char → Option Unit → Except Nat Nat
  exportErr : Option Nat
  modelSr : Nat

/-- Result of one request: a success payload (the assembled audio and the
reported sample rate), a structured error dictionary, or a propagated
exception. -/
inductive Outcome where
  | ok (audio : AudioSeg) (sampleRate : Nat)
  | err (msg : List Char)
  | exc (e : Nat)
deriving DecidableEq, Repr

/-- Full observable behaviour of one request: outcome, event trace, and
whether the voice-prompt temporary file still exists afterwards. -/
structure RunOut where
  outcome : Outcome
  events : List Ev
  tempLeft : Bool
deriving DecidableEq, Repr

def msgEmpty : List Char := str "input.text is required and must not be empty"

def msgNoSpeak : List Char := str "No speakable text found after parsing pause markers"

/-- Lines 123–126 of the loop body: strip the literal run; if non-empty,
synthesise it and append to (or initialise) the accumulator. -/
def addText (o : Oracles) (prm : Option Unit) (comb : Option AudioSeg)
    (t : List Char) : List Ev × Except Nat (Option AudioSeg) :=
  if pyStrip t = [] then ([], Except.ok comb)
  else
    match o.synth (pyStrip t) prm with
    | Except.error e => ([Ev.synthCall (pyStrip t) prm], Except.error e)
    | Except.ok fr =>
      match comb with
      | none => ([Ev.synthCall (pyStrip t) prm], Except.ok (some ⟨o.modelSr, fr⟩))
      | some c =>
        let p := pdAppend c ⟨o.modelSr, fr⟩
        (Ev.synthCall (pyStrip t) prm :: p.2, Except.ok (some p.1))

/-- The while loop of lines 120–134 over the split parts: the loop index
steps by 2 when a captured duration follows the current literal run
(appending silence to the accumulator, initialising it with
`AudioSegment.empty()` if needed) and by 1 at the final literal run. -/
def loopGo (o : Oracles) (prm : Option Unit) :
    Option AudioSeg → List (List Char) → List Ev × Except Nat (Option AudioSeg)
  | comb, [] => ([], Except.ok comb)
  | comb, [t] => addText o prm comb t
  | comb, t :: d :: rest =>
    match addText o prm comb t with
    | (evs, Except.error e) => (evs, Except.error e)
    | (evs, Except.ok comb1) =>
      let sil := pdSilent (msOfCap d)
      let p := pdAppend (comb1.getD pdEmpty) sil
      let r := loopGo o prm (some p.1) rest
      (evs ++ Ev.mkSilence silentRate (msOfCap d) :: p.2 ++ r.1, r.2)

/-- Body of the `try` block (lines 116–137) followed by the `finally`
cleanup (lines 139–141) and the export (lines 143–151): split on pause
markers, run the assembly loop, delete the temporary file if one was
created, then export and return.  `pre` is the trace accumulated before the
loop. -/
def runBody (o : Oracles) (txt : List Char) (prm : Option Unit)
    (pre : List Ev) (tempMade : Bool) : RunOut :=
  let r := loopGo o prm none (splitParts txt)
  let fin : List Ev := if tempMade then [Ev.tempDelete] else []
  match r.2 with
  | Except.error e => ⟨Outcome.exc e, pre ++ r.1 ++ fin, false⟩
  | Except.ok none => ⟨Outcome.err msgNoSpeak, pre ++ r.1 ++ fin, false⟩
  | Except.ok (some c) =>
    match o.exportErr with
    | some e => ⟨Outcome.exc e, pre ++ r.1 ++ fin ++ [Ev.encodeMp3], false⟩
    | none => ⟨Outcome.ok c o.modelSr, pre ++ r.1 ++ fin ++ [Ev.encodeMp3], false⟩

/-- Request payload fields the handler reads (`event["input"]`); an absent
field is `none`.  `exaggeration`, `cfg_weight` and `mp3_bitrate` are passed
through opaquely to the oracles and are omitted. -/
structure JobInput where
  text : Option (List Char) := none
  audioPromptUrl : Option (List Char) := none

/-- Model of `handler` (handler.py lines 98–151).  A present but empty
`audio_prompt_url` is falsy in Python, so no fetch happens (line 113).  When
the fetch itself raises, `prompt_path` was never assigned in the caller, so
the `finally` block deletes nothing and the temporary file created inside
`_fetch_audio_prompt` (line 74, `delete=False`) survives: `tempLeft` is
true exactly on that path. -/
def handler (o : Oracles) (inp : JobInput) : RunOut :=
  let txt := sanitiseText (inp.text.getD [])
  if txt = [] then ⟨Outcome.err msgEmpty, [], false⟩
  else
    match inp.audioPromptUrl with
    | none => runBody o txt none [] false
    | some url =>
      if url = [] then runBody o txt none [] false
      else
        match o.fetch url with
        | Except.error e => ⟨Outcome.exc e, [Ev.tempCreate, Ev.fetchTry url], true⟩
        | Except.ok _ =>
          runBody o txt (some ()) [Ev.tempCreate, Ev.fetchTry url] true

/-- Oracles with every external call succeeding: downloads succeed, every
synthesis yields 100 frames at the model's native 24000 Hz, export
succeeds. -/
def oracles0 : Oracles :=
  ⟨fun _ => Except.ok (), fun _ _ => Except.ok 100, none, 24000⟩

/-- Oracles identical to `oracles0` except that the voice-prompt download
raises (exception code 7). -/
def oraclesF : Oracles :=
  ⟨fun _ => Except.error 7, fun _ _ => Except.ok 100, none, 24000⟩

/-- Head predicate: the list is empty or starts with a non-whitespace
character. -/
def noWsHead : List Char → Prop
  | [] => True
  | c :: _ => isPyWs c = false

/-- No two adjacent whitespace characters. -/
def noAdjWs : List Char → Bool
  | [] => true
  | [_] => true
  | a :: b :: r => (!(isPyWs a && isPyWs b)) && noAdjWs (b :: r)

/-- Whether a run outcome is the dead `No speakable text found` error. -/
def isNoSpeakErr (r : RunOut) : Bool :=
  match r.outcome with
  | Outcome.err m => m == msgNoSpeak
  | _ => false

/-- Events that witness a network fetch, a temporary file, or a synthesis
call that carries a voice reference. -/
def noFetchNoPromptEv : Ev → Bool
  | Ev.tempCreate => false
  | Ev.fetchTry _ => false
  | Ev.synthCall _ (some _) => false
  | _ => true

/-- The plan unit an event witnesses: a synthesis call witnesses a
`TextUnit` with its text, a silence generation witnesses a `SilenceUnit`
with its duration; rate conversions and bookkeeping events witness none. -/
def evUnit : Ev → Option SegUnit
  | Ev.synthCall t _ => some (SegUnit.text t)
  | Ev.mkSilence _ ms => some (SegUnit.silence ms)
  | _ => none

/-! Sanity checks and supporting lemmas, followed by the claim theorems. -/

example : sanitiseText (str "  Hello,   world \n") = str "Hello, world" := by decide

example : sanitiseText (str "\"Hello, \\\"world\\\"\"") = str "Hello, \"world\"" := by decide

example : sanitiseText (str "\t\x00\x1f  ") = [] := by decide

example : sanitiseText (str "\"hello\"\x00") = str "\"hello\"" := by decide

example : sanitiseText (sanitiseText (str "\"hello\"\x00")) = str "hello" := by decide

theorem scanPause_shrinks {s cap rest : List Char}
    (h : scanPause s = some (cap, rest)) : rest.length < s.length := by
  unfold scanPause at h
  split at h
  next tl =>
    have hd : (tl.dropWhile isDigitCh).length ≤ tl.length :=
      List.Sublist.length_le (List.dropWhile_sublist isDigitCh)
    split at h
    · exact absurd h (by simp)
    · split at h
      next r2 heq =>
        injection h with h'
        injection h' with h1 h2
        subst h2
        have : r2.length + 1 = (tl.dropWhile isDigitCh).length := by
          rw [heq]; simp
        simp only [List.length_cons]
        omega
      next r2 heq =>
        have hr2 : r2.length + 1 = (tl.dropWhile isDigitCh).length := by
          rw [heq]; simp
        have hd2 : (r2.dropWhile isDigitCh).length ≤ r2.length :=
          List.Sublist.length_le (List.dropWhile_sublist isDigitCh)
        split at h
        · exact absurd h (by simp)
        · split at h
          next r4 heq4 =>
            injection h with h'
            injection h' with h1 h2
            subst h2
            have : r4.length + 1 = (r2.dropWhile isDigitCh).length := by
              rw [heq4]; simp
            simp only [List.length_cons]
            omega
          next => exact absurd h (by simp)
      next => exact absurd h (by simp)
  next => exact absurd h (by simp [scanPause])

theorem splitAux_fuel_irrel :
    ∀ (f : Nat) {s : List Char} (g : Nat) (acc : List Char),
      s.length ≤ f → s.length ≤ g → splitAux f acc s = splitAux g acc s := by
  intro f
  induction f with
  | zero =>
    intro s g acc hf _
    have : s = [] := List.length_eq_zero.mp (Nat.le_zero.mp hf)
    subst this
    cases g <;> simp [splitAux]
  | succ f ih =>
    intro s g acc hf hg
    cases s with
    | nil => cases g <;> simp [splitAux]
    | cons c cs =>
      cases g with
      | zero => simp at hg
      | succ g' =>
        simp only [splitAux]
        cases hs : scanPause (c :: cs) with
        | some p =>
          have hlt : p.2.length < (c :: cs).length :=
            scanPause_shrinks (show scanPause (c :: cs) = some (p.1, p.2) by rw [hs])
          simp only [List.length_cons] at hf hg hlt
          exact congrArg _ (congrArg _ (ih g' [] (by omega) (by omega)))
        | none =>
          simp only [List.length_cons] at hf hg
          exact ih g' (c :: acc) (by omega) (by omega)

example : splitParts (str "Hello [pause:2] world") =
    [str "Hello ", str "2", str " world"] := by decide

example : splitParts (str "[pause:1][pause:1.5]") =
    [[], str "1", [], str "1.5", []] := by decide

example : splitParts (str "a [pause:1.] b") = [str "a [pause:1.] b"] := by decide

example : msOfCap (str "2") = 2000 := by decide

example : msOfCap (str "1.5") = 1500 := by decide

example : msOfCap (str "0.0015") = 1 := by decide

example : segmentPlan (str "Hello [pause:2] world") =
    [SegUnit.text (str "Hello"), SegUnit.silence 2000,
     SegUnit.text (str "world")] := by decide

theorem trimR_cons_eq (c : Char) (cs : List Char) :
    trimR (c :: cs) = (match trimR cs with
      | [] => if isPyWs c = true then [] else [c]
      | r => c :: r) := rfl

theorem trimR_cons_of (c : Char) {l r : List Char}
    (h : trimR l = r) (hne : r ≠ []) : trimR (c :: l) = c :: r := by
  rw [trimR_cons_eq, h]
  cases r with
  | nil => exact absurd rfl hne
  | cons y ys => rfl

/-- A list either is left untouched at its head by `trimR`, or trims to
nil. -/
theorem trimR_cons (c : Char) (cs : List Char) :
    trimR (c :: cs) = [] ∨ ∃ r, trimR (c :: cs) = c :: r := by
  cases h : trimR cs with
  | nil =>
    by_cases hw : isPyWs c = true
    · left; simp [trimR, h, hw]
    · right; exact ⟨[], by simp [trimR, h, hw]⟩
  | cons x xs => right; exact ⟨x :: xs, by simp [trimR, h]⟩

theorem trimR_head {s x : List Char} {c : Char} (h : trimR s = c :: x) :
    ∃ t, s = c :: t := by
  cases s with
  | nil => simp [trimR] at h
  | cons c' cs =>
    rcases trimR_cons c' cs with h0 | ⟨r, hr⟩
    · rw [h0] at h; exact absurd h (by simp)
    · rw [hr] at h; exact ⟨cs, by rw [(List.cons.injEq ..).mp h |>.1.symm]⟩

theorem mem_trimR {a : Char} : ∀ {s : List Char}, a ∈ trimR s → a ∈ s := by
  intro s
  induction s with
  | nil => simp [trimR]
  | cons c cs ih =>
    intro h
    cases hcs : trimR cs with
    | nil =>
      by_cases hw : isPyWs c = true <;> simp [trimR, hcs, hw] at h
      simp [h]
    | cons x xs =>
      rw [show trimR (c :: cs) = c :: x :: xs by simp [trimR, hcs]] at h
      rcases List.mem_cons.mp h with h | h
      · simp [h]
      · exact List.mem_cons_of_mem c (ih (hcs ▸ h))

theorem noWsHead_trimL (s : List Char) : noWsHead (trimL s) := by
  induction s with
  | nil => trivial
  | cons c cs ih =>
    by_cases hw : isPyWs c = true
    · simpa [trimL, List.dropWhile_cons, hw] using ih
    · simp only [trimL, List.dropWhile_cons, hw]
      simpa [noWsHead] using Bool.eq_false_iff.mpr hw

theorem trimL_eq_of_noWsHead : ∀ {s : List Char}, noWsHead s → trimL s = s := by
  intro s h
  cases s with
  | nil => rfl
  | cons c cs =>
    have h' : isPyWs c = false := h
    simp [trimL, List.dropWhile_cons, h']

theorem noWsHead_trimR {s : List Char} (h : noWsHead s) : noWsHead (trimR s) := by
  cases s with
  | nil => simp [trimR]; trivial
  | cons c cs =>
    rcases trimR_cons c cs with h0 | ⟨r, hr⟩
    · rw [h0]; trivial
    · rw [hr]; exact h

theorem trimR_idem : ∀ s : List Char, trimR (trimR s) = trimR s := by
  intro s
  induction s with
  | nil => rfl
  | cons c cs ih =>
    cases hcs : trimR cs with
    | nil =>
      by_cases hw : isPyWs c = true
      · simp [trimR, hcs, hw]
      · simp [trimR, hcs, hw]
    | cons x xs =>
      have h1 : trimR (c :: cs) = c :: x :: xs := trimR_cons_of c hcs (by simp)
      have h2 : trimR (x :: xs) = x :: xs := by
        have := ih; rw [hcs] at this; exact this
      rw [h1]
      exact trimR_cons_of c h2 (by simp)

theorem noWsHead_pyStrip (s : List Char) : noWsHead (pyStrip s) :=
  noWsHead_trimR (noWsHead_trimL s)

theorem pyStrip_idem (s : List Char) : pyStrip (pyStrip s) = pyStrip s := by
  unfold pyStrip
  rw [trimL_eq_of_noWsHead (noWsHead_trimR (noWsHead_trimL s))]
  exact trimR_idem _

theorem mem_pyStrip {a : Char} {s : List Char} (h : a ∈ pyStrip s) : a ∈ s :=
  (List.dropWhile_sublist isPyWs).subset (mem_trimR h)

theorem mem_collapseAux {a : Char} :
    ∀ {b : Bool} {s : List Char}, a ∈ collapseAux b s →
      a = ' ' ∨ (a ∈ s ∧ isPyWs a = false) := by
  intro b s
  induction s generalizing b with
  | nil => simp [collapseAux]
  | cons c cs ih =>
    intro h
    by_cases hw : isPyWs c = true
    · cases b with
      | true =>
        simp only [collapseAux, hw, if_true] at h
        rcases ih h with h | ⟨h1, h2⟩
        · exact Or.inl h
        · exact Or.inr ⟨List.mem_cons_of_mem c h1, h2⟩
      | false =>
        simp only [collapseAux, hw, if_true] at h
        rcases List.mem_cons.mp h with h | h
        · exact Or.inl h
        · rcases ih h with h | ⟨h1, h2⟩
          · exact Or.inl h
          · exact Or.inr ⟨List.mem_cons_of_mem c h1, h2⟩
    · simp only [collapseAux, hw] at h
      rcases List.mem_cons.mp h with h | h
      · exact Or.inr ⟨by simp [h], by subst h; exact Bool.eq_false_iff.mpr hw⟩
      · rcases ih h with h | ⟨h1, h2⟩
        · exact Or.inl h
        · exact Or.inr ⟨List.mem_cons_of_mem c h1, h2⟩

theorem noWsHead_collapseTrue : ∀ s : List Char, noWsHead (collapseAux true s) := by
  intro s
  induction s with
  | nil => trivial
  | cons c cs ih =>
    by_cases hw : isPyWs c = true
    · simpa [collapseAux, hw] using ih
    · simp only [collapseAux, hw]
      simpa [noWsHead] using Bool.eq_false_iff.mpr hw

theorem noAdjWs_cons_of {a : Char} {L : List Char}
    (h1 : isPyWs a = false ∨ noWsHead L) (h2 : noAdjWs L = true) :
    noAdjWs (a :: L) = true := by
  cases L with
  | nil => rfl
  | cons x xs =>
    have hx : isPyWs a = false ∨ isPyWs x = false := by
      rcases h1 with h | h
      · exact Or.inl h
      · exact Or.inr h
    simp only [noAdjWs, Bool.and_eq_true, Bool.not_eq_true']
    exact ⟨by rcases hx with h | h <;> simp [h], h2⟩

theorem noAdjWs_of_cons {a : Char} {L : List Char} (h : noAdjWs (a :: L) = true) :
    noAdjWs L = true ∧ (isPyWs a = true → noWsHead L) := by
  cases L with
  | nil => exact ⟨rfl, fun _ => trivial⟩
  | cons x xs =>
    simp only [noAdjWs, Bool.and_eq_true, Bool.not_eq_true'] at h
    refine ⟨h.2, fun hw => ?_⟩
    have := h.1
    rw [hw] at this
    simpa [noWsHead] using this

theorem noAdjWs_collapseAux : ∀ (s : List Char) (b : Bool),
    noAdjWs (collapseAux b s) = true := by
  intro s
  induction s with
  | nil => intro b; rfl
  | cons c cs ih =>
    intro b
    by_cases hw : isPyWs c = true
    · cases b with
      | true => simpa [collapseAux, hw] using ih true
      | false =>
        simp only [collapseAux, hw, if_true]
        exact noAdjWs_cons_of (Or.inr (noWsHead_collapseTrue cs)) (ih true)
    · simp only [collapseAux, hw]
      exact noAdjWs_cons_of (Or.inl (Bool.eq_false_iff.mpr hw)) (ih false)

theorem collapseAux_eq_self :
    ∀ s : List Char, (∀ x ∈ s, isPyWs x = true → x = ' ') → noAdjWs s = true →
      collapseAux false s = s ∧ (noWsHead s → collapseAux true s = s) := by
  intro s
  induction s with
  | nil => exact fun _ _ => ⟨rfl, fun _ => rfl⟩
  | cons c cs ih =>
    intro h1 h2
    have hd := noAdjWs_of_cons h2
    have ihh := ih (fun x hx => h1 x (List.mem_cons_of_mem c hx)) hd.1
    by_cases hw : isPyWs c = true
    · have hc : c = ' ' := h1 c (by simp) hw
      have e : collapseAux false (c :: cs) = ' ' :: collapseAux true cs := by
        simp [collapseAux, hw]
      constructor
      · rw [e, ihh.2 (hd.2 hw), hc]
      · intro hh
        exfalso
        have : isPyWs c = false := hh
        rw [hw] at this
        exact absurd this (by simp)
    · have e : ∀ b, collapseAux b (c :: cs) = c :: collapseAux false cs := by
        intro b; simp [collapseAux, hw]
      constructor
      · rw [e false, ihh.1]
      · intro _
        rw [e true, ihh.1]

theorem noAdjWs_trimL {s : List Char} (h : noAdjWs s = true) :
    noAdjWs (trimL s) = true := by
  induction s with
  | nil => exact h
  | cons c cs ih =>
    by_cases hw : isPyWs c = true
    · simpa [trimL, List.dropWhile_cons, hw] using ih (noAdjWs_of_cons h).1
    · simpa [trimL, List.dropWhile_cons, hw] using h

theorem noAdjWs_trimR : ∀ {s : List Char}, noAdjWs s = true →
    noAdjWs (trimR s) = true := by
  intro s
  induction s with
  | nil => exact fun h => h
  | cons c cs ih =>
    intro h
    cases hcs : trimR cs with
    | nil =>
      by_cases hw : isPyWs c = true <;> simp [trimR, hcs, hw, noAdjWs]
    | cons x xs =>
      rw [trimR_cons_of c hcs (by simp)]
      obtain ⟨t, ht⟩ := trimR_head hcs
      subst ht
      have h1 := noAdjWs_of_cons h
      have h2 := ih h1.1
      rw [hcs] at h2
      simp only [noAdjWs, Bool.and_eq_true] at h ⊢
      exact ⟨h.1, h2⟩

theorem nfkcChar_idem (c : Char) : nfkcChar (nfkcChar c) = nfkcChar c := by
  by_cases h1 : c.toNat = 160 ∨ (8192 ≤ c.toNat ∧ c.toNat ≤ 8202) ∨
      c.toNat = 8239 ∨ c.toNat = 8287 ∨ c.toNat = 12288
  · have e : nfkcChar c = ' ' := by simp [nfkcChar, h1]
    rw [e]; decide
  · by_cases h2 : c.toNat = 65282
    · have e : nfkcChar c = '"' := by simp [nfkcChar, h1, h2]
      rw [e]; decide
    · have e : nfkcChar c = c := by simp [nfkcChar, h1, h2]
      rw [e]; exact e

theorem nfkcChar_ascii {c : Char} (h : c.toNat < 128) : nfkcChar c = c := by
  have h1 : ¬(c.toNat = 160 ∨ (8192 ≤ c.toNat ∧ c.toNat ≤ 8202) ∨
      c.toNat = 8239 ∨ c.toNat = 8287 ∨ c.toNat = 12288) := by omega
  have h2 : ¬(c.toNat = 65282) := by omega
  simp [nfkcChar, h1, h2]

theorem nfkcChar_ws_or_ctl {c : Char} (h : isPyWs c = true ∨ isCtl c = true) :
    isPyWs (nfkcChar c) = true ∨ isCtl (nfkcChar c) = true := by
  by_cases h1 : c.toNat = 160 ∨ (8192 ≤ c.toNat ∧ c.toNat ≤ 8202) ∨
      c.toNat = 8239 ∨ c.toNat = 8287 ∨ c.toNat = 12288
  · have e : nfkcChar c = ' ' := by simp [nfkcChar, h1]
    rw [e]; left; decide
  · by_cases h2 : c.toNat = 65282
    · exfalso
      simp only [isPyWs, isCtl, decide_eq_true_eq] at h
      omega
    · have e : nfkcChar c = c := by simp [nfkcChar, h1, h2]
      rw [e]; exact h

theorem quoteWrapped_false_of_head {c : Char} {cs : List Char}
    (h : ¬c = '"') : quoteWrapped (c :: cs) = false := by
  simp [quoteWrapped, h]

/-- Every list all of whose members are whitespace collapses (with the
previous-was-whitespace flag set) to nothing. -/
theorem collapseTrue_allWs :
    ∀ {u : List Char}, (∀ c ∈ u, isPyWs c = true) → collapseAux true u = [] := by
  intro u
  induction u with
  | nil => intro _; rfl
  | cons c cs ih =>
    intro h
    have hw := h c (by simp)
    simp only [collapseAux, hw, if_true]
    exact ih fun x hx => h x (List.mem_cons_of_mem c hx)

theorem collapseWs_allWs {u : List Char} (h : ∀ c ∈ u, isPyWs c = true) :
    collapseWs u = [] := by
  cases u with
  | nil => rfl
  | cons c cs =>
    have hw := h c (by simp)
    have e : collapseAux false (c :: cs) = [' '] := by
      have e2 : collapseAux true cs = [] :=
        collapseTrue_allWs fun x hx => h x (List.mem_cons_of_mem c hx)
      simp [collapseAux, hw, e2]
    unfold collapseWs
    rw [e]
    decide

theorem map_id_of_fixed : ∀ {l : List Char} {f : Char → Char},
    (∀ x ∈ l, f x = x) → l.map f = l := by
  intro l f
  induction l with
  | nil => intro _; rfl
  | cons c cs ih =>
    intro h
    simp only [List.map_cons, h c (by simp), List.cons.injEq, true_and]
    exact ih fun x hx => h x (List.mem_cons_of_mem c hx)

theorem sanitise_shape {s : List Char} :
    ∀ x ∈ sanitiseText s,
      nfkcChar x = x ∧ isCtl x = false ∧ (isPyWs x = true → x = ' ') := by
  intro x hx
  have hx2 : x ∈ collapseAux false (stripCtl (nfkc (unwrapStep s))) :=
    mem_pyStrip hx
  rcases mem_collapseAux hx2 with h | ⟨h1, h2⟩
  · subst h
    exact ⟨by decide, by decide, fun _ => rfl⟩
  · have h3 := List.mem_filter.mp h1
    have hctl : isCtl x = false := by
      have := h3.2
      simp only [Bool.not_eq_true'] at this
      exact this
    obtain ⟨y, _, hy⟩ := List.mem_map.mp h3.1
    refine ⟨?_, hctl, fun hw => absurd hw (by simp [h2])⟩
    rw [← hy]
    exact nfkcChar_idem y

theorem sanitise_noAdj (s : List Char) : noAdjWs (sanitiseText s) = true :=
  noAdjWs_trimR (noAdjWs_trimL (noAdjWs_collapseAux _ false))

theorem sanitise_stripped (s : List Char) :
    pyStrip (sanitiseText s) = sanitiseText s := by
  have : sanitiseText s =
      pyStrip (collapseAux false (stripCtl (nfkc (unwrapStep s)))) := rfl
  rw [this, pyStrip_idem]

/-- C3, counterexample: normalization is not idempotent.  On the input
`"hello"` followed by a NUL byte, the first pass strips the NUL and leaves
the quote-wrapped string `"hello"`; the second pass then unwraps it to
`hello`. -/
theorem c3_counterexample :
    (sanitiseText (sanitiseText (str "\"hello\"\x00")) ==
      sanitiseText (str "\"hello\"\x00")) = false := by decide

/-- C3, amended: normalization is idempotent on every string whose
normalized form consists only of ASCII characters and does not both start
and end with a quote character — a second pass returns such output
unchanged.  Outside this domain a second pass can differ: a quote-wrapped
normalized form can be JSON-unwrapped (see the counterexample), and a
non-ASCII normalized form can be changed by Unicode normalization effects
(stripping a control byte between a base letter and a combining mark
leaves a decomposed pair that the second pass's NFKC composes, as on
`e` + NUL + U+0301).  On ASCII the character-wise NFKC model is exact,
so the theorem is confined to that repertoire. -/
theorem c3_theorem (s : List Char)
    (ha : (sanitiseText s).all isAsciiCh = true)
    (hq : quoteWrapped (sanitiseText s) = false) :
    sanitiseText (sanitiseText s) = sanitiseText s := by
  have hstrip := sanitise_stripped s
  have hub : unwrapStep (sanitiseText s) = sanitiseText s := by
    simp only [unwrapStep]
    rw [hstrip, hq]
    simp
  have hn : nfkc (sanitiseText s) = sanitiseText s :=
    map_id_of_fixed fun x hx =>
      nfkcChar_ascii (by simpa [isAsciiCh] using List.all_eq_true.mp ha x hx)
  have hf : stripCtl (sanitiseText s) = sanitiseText s := by
    unfold stripCtl
    rw [List.filter_eq_self.mpr]
    intro a haa
    simp [(sanitise_shape a haa).2.1]
  have hcol : collapseAux false (sanitiseText s) = sanitiseText s :=
    (collapseAux_eq_self _ (fun x hx hw => (sanitise_shape x hx).2.2 hw)
      (sanitise_noAdj s)).1
  show collapseWs (stripCtl (nfkc (unwrapStep (sanitiseText s)))) = sanitiseText s
  rw [hub, hn, hf]
  unfold collapseWs
  rw [hcol, hstrip]

/-- C3, witness: the amended idempotence applied to a concrete string. -/
theorem c3_witness :
    ((sanitiseText (str "Hi  there")).all isAsciiCh = true) ∧
    (quoteWrapped (sanitiseText (str "Hi  there")) = false) ∧
    sanitiseText (sanitiseText (str "Hi  there")) = sanitiseText (str "Hi  there") :=
  ⟨by decide, by decide, c3_theorem _ (by decide) (by decide)⟩

/-- C4, counterexample: U+0090 is a non-printable C1 control character, yet
it is outside the normalizer's stripped ranges, so a text consisting of it
alone normalizes to itself (non-empty) and the handler proceeds to
synthesis instead of returning a validation error. -/
theorem c4_counterexample :
    sanitiseText [Char.ofNat 144] = [Char.ofNat 144] ∧
    handler oracles0 ⟨some [Char.ofNat 144], none⟩ =
      ⟨Outcome.ok ⟨24000, 100⟩ 24000,
        [Ev.synthCall [Char.ofNat 144] none, Ev.encodeMp3], false⟩ := by decide

/-- C4, amended: for every input consisting only of Python whitespace
characters and/or control characters in the normalizer's stripped ranges
(U+0000–U+0008, U+000B, U+000C, U+000E–U+001F, U+007F), normalization
yields the empty string and the handler returns the validation error
without any side effect. -/
theorem c4_theorem (o : Oracles) (s : List Char) (url : Option (List Char))
    (h : ∀ c ∈ s, isPyWs c = true ∨ isCtl c = true) :
    sanitiseText s = [] ∧
      handler o ⟨some s, url⟩ = ⟨Outcome.err msgEmpty, [], false⟩ := by
  have hq : quoteWrapped (pyStrip s) = false := by
    cases hps : pyStrip s with
    | nil => rfl
    | cons c cs =>
      have hc : c ∈ s := mem_pyStrip (hps ▸ List.mem_cons_self c cs)
      have hprop := h c hc
      apply quoteWrapped_false_of_head
      intro hcq
      subst hcq
      revert hprop
      decide
  have hub : unwrapStep s = s := by
    simp [unwrapStep, hq]
  have hws : ∀ c ∈ stripCtl (nfkc s), isPyWs c = true := by
    intro c hc
    have h2 := List.mem_filter.mp hc
    obtain ⟨y, hy1, hy2⟩ := List.mem_map.mp h2.1
    have h3 : isPyWs c = true ∨ isCtl c = true :=
      hy2 ▸ nfkcChar_ws_or_ctl (h y hy1)
    rcases h3 with h3 | h3
    · exact h3
    · exfalso
      have h4 := h2.2
      rw [h3] at h4
      simp at h4
  have hempty : sanitiseText s = [] := by
    show collapseWs (stripCtl (nfkc (unwrapStep s))) = []
    rw [hub]
    exact collapseWs_allWs hws
  exact ⟨hempty, by simp [handler, hempty]⟩

/-- C4, witness: the amended property applied to a concrete
whitespace-and-control string. -/
theorem c4_witness :
    (∀ c ∈ str " \t\x00\x0b", isPyWs c = true ∨ isCtl c = true) ∧
    (sanitiseText (str " \t\x00\x0b") = [] ∧
      handler oracles0 ⟨some (str " \t\x00\x0b"), none⟩ =
        ⟨Outcome.err msgEmpty, [], false⟩) :=
  ⟨by decide, c4_theorem oracles0 _ none (by decide)⟩

/-- C7: the double-encoding unwrap is total and never raises — the model is
a total function; when the JSON parse of the stripped input fails the input
is returned unchanged; and the documented example decodes as specified. -/
theorem c7_theorem (s : List Char) (h : jsonLoads (pyStrip s) = none) :
    unwrapStep s = s ∧
      sanitiseText (str "\"Hello, \\\"world\\\"\"") = str "Hello, \"world\"" := by
  refine ⟨?_, by decide⟩
  cases hq : quoteWrapped (pyStrip s) with
  | false => simp [unwrapStep, hq]
  | true => simp [unwrapStep, hq, h]

/-- C7, witness: the unwrap step leaves the unparsable string `"""`
unchanged. -/
theorem c7_witness :
    unwrapStep (str "\"\"\"") = str "\"\"\"" ∧
      sanitiseText (str "\"Hello, \\\"world\\\"\"") = str "Hello, \"world\"" :=
  c7_theorem _ (by decide)

/-- C8: an input whose text is absent or normalizes to empty yields exactly
the validation error `input.text is required and must not be empty`, with
no fetch, synthesis, export, or temporary file. -/
theorem c8_theorem (o : Oracles) (tx url : Option (List Char))
    (h : sanitiseText (tx.getD []) = []) :
    handler o ⟨tx, url⟩ = ⟨Outcome.err msgEmpty, [], false⟩ := by
  simp [handler, h]

/-- C8, witness: the empty-text case, with a prompt URL present. -/
theorem c8_witness :
    sanitiseText ((some (str "")).getD []) = [] ∧
    handler oracles0 ⟨some (str ""), some (str "http://x")⟩ =
      ⟨Outcome.err msgEmpty, [], false⟩ :=
  ⟨by decide, c8_theorem oracles0 _ _ (by decide)⟩

theorem splitAux_ne_nil : ∀ (f : Nat) (acc s : List Char), splitAux f acc s ≠ [] := by
  intro f
  induction f with
  | zero => intro acc s; cases s <;> simp [splitAux]
  | succ f ih =>
    intro acc s
    cases s with
    | nil => simp [splitAux]
    | cons c cs =>
      cases h : scanPause (c :: cs) with
      | some p =>
        obtain ⟨cap, rest⟩ := p
        simp [splitAux, h]
      | none => simpa [splitAux, h] using ih (c :: acc) cs

theorem splitAux_singleton : ∀ (f : Nat) (acc s r : List Char),
    splitAux f acc s = [r] → r = acc.reverse ++ s := by
  intro f
  induction f with
  | zero =>
    intro acc s r h
    cases s with
    | nil =>
      simp only [splitAux, List.cons.injEq, and_true] at h
      simp [← h]
    | cons c cs =>
      simp only [splitAux, List.cons.injEq, and_true] at h
      exact h.symm
  | succ f ih =>
    intro acc s r h
    cases s with
    | nil =>
      simp only [splitAux, List.cons.injEq, and_true] at h
      simp [← h]
    | cons c cs =>
      cases hs : scanPause (c :: cs) with
      | some p =>
        obtain ⟨cap, rest⟩ := p
        rw [show splitAux (f + 1) acc (c :: cs) =
          acc.reverse :: cap :: splitAux f [] rest by simp [splitAux, hs]] at h
        exact absurd h (by simp)
      | none =>
        rw [show splitAux (f + 1) acc (c :: cs) = splitAux f (c :: acc) cs by
          simp [splitAux, hs]] at h
        rw [ih (c :: acc) cs r h]
        simp

theorem setRate_events {a : AudioSeg} {r : Nat} {ev : Ev}
    (h : ev ∈ (setRate a r).2) : ev = Ev.resample a.frameRate r := by
  unfold setRate at h
  split_ifs at h
  · simp at h
  · simpa using h

theorem pdAppend_events {a b : AudioSeg} {ev : Ev}
    (h : ev ∈ (pdAppend a b).2) : ∃ x y, ev = Ev.resample x y := by
  simp only [pdAppend] at h
  rcases List.mem_append.mp h with h | h
  · exact ⟨_, _, setRate_events h⟩
  · exact ⟨_, _, setRate_events h⟩

theorem pdAppend_rate (a b : AudioSeg) :
    (pdAppend a b).1.frameRate = max a.frameRate b.frameRate := rfl

/-- Exhaustive case analysis of a successful `addText` step. -/
theorem addText_cases {o : Oracles} {prm : Option Unit} {comb : Option AudioSeg}
    {t : List Char} {evs : List Ev} {comb1 : Option AudioSeg}
    (h : addText o prm comb t = (evs, Except.ok comb1)) :
    (pyStrip t = [] ∧ comb1 = comb ∧ evs = []) ∨
    (pyStrip t ≠ [] ∧ ∃ fr, evs = [Ev.synthCall (pyStrip t) prm] ∧ comb = none ∧
      comb1 = some ⟨o.modelSr, fr⟩) ∨
    (pyStrip t ≠ [] ∧ ∃ fr c, comb = some c ∧
      evs = Ev.synthCall (pyStrip t) prm :: (pdAppend c ⟨o.modelSr, fr⟩).2 ∧
      comb1 = some (pdAppend c ⟨o.modelSr, fr⟩).1) := by
  unfold addText at h
  split_ifs at h with hstr
  · left
    obtain ⟨h1, h2⟩ := Prod.mk.injEq .. |>.mp h.symm
    injection h2 with h2
    exact ⟨hstr, h2, h1⟩
  · cases hs : o.synth (pyStrip t) prm with
    | error e => rw [hs] at h; simp at h
    | ok fr =>
      rw [hs] at h
      cases comb with
      | none =>
        obtain ⟨h1, h2⟩ := Prod.mk.injEq .. |>.mp h.symm
        injection h2 with h2
        exact Or.inr (Or.inl ⟨hstr, fr, h1, rfl, h2⟩)
      | some c =>
        obtain ⟨h1, h2⟩ := Prod.mk.injEq .. |>.mp h.symm
        injection h2 with h2
        exact Or.inr (Or.inr ⟨hstr, fr, c, rfl, h1, h2⟩)

theorem addText_error_events {o : Oracles} {prm : Option Unit}
    {comb : Option AudioSeg} {t : List Char} {evs : List Ev} {e : Nat}
    (h : addText o prm comb t = (evs, Except.error e)) :
    evs = [Ev.synthCall (pyStrip t) prm] := by
  unfold addText at h
  split_ifs at h
  · simp at h
  · cases hs : o.synth (pyStrip t) prm with
    | error e2 =>
      rw [hs] at h
      exact (Prod.mk.injEq .. |>.mp h.symm).1
    | ok fr =>
      rw [hs] at h
      cases comb <;> simp at h

theorem addText_events {o : Oracles} {prm : Option Unit} {comb : Option AudioSeg}
    {t : List Char} {ev : Ev} (h : ev ∈ (addText o prm comb t).1) :
    (∃ tt, ev = Ev.synthCall tt prm) ∨ (∃ x y, ev = Ev.resample x y) := by
  rcases he : (addText o prm comb t).2 with e | comb1
  · have hfull : addText o prm comb t = ((addText o prm comb t).1, Except.error e) := by
      rw [← he]
    rw [addText_error_events hfull] at h
    simp only [List.mem_singleton] at h
    exact Or.inl ⟨_, h⟩
  · have hfull : addText o prm comb t = ((addText o prm comb t).1, Except.ok comb1) := by
      rw [← he]
    rcases addText_cases hfull with ⟨_, _, h2⟩ | ⟨_, fr, h2, _, _⟩ | ⟨_, fr, c, _, h2, _⟩
    · rw [h2] at h; simp at h
    · rw [h2] at h
      simp only [List.mem_singleton] at h
      exact Or.inl ⟨_, h⟩
    · rw [h2] at h
      rcases List.mem_cons.mp h with h | h
      · exact Or.inl ⟨_, h⟩
      · exact Or.inr (pdAppend_events h)

/-- Every event emitted by the assembly loop is a synthesis call carrying
the loop's prompt handle, a silence generation at pydub's default rate, or
a rate conversion. -/
theorem loopGo_events (o : Oracles) (prm : Option Unit) :
    ∀ comb ps, ∀ ev ∈ (loopGo o prm comb ps).1,
      (∃ tt, ev = Ev.synthCall tt prm) ∨
      (∃ ms, ev = Ev.mkSilence silentRate ms) ∨
      (∃ x y, ev = Ev.resample x y) := by
  intro comb ps
  induction comb, ps using loopGo.induct o prm with
  | case1 comb => intro ev h; simp [loopGo] at h
  | case2 comb t =>
    intro ev h
    rcases addText_events h with h | h
    · exact Or.inl h
    · exact Or.inr (Or.inr h)
  | case3 comb t d rest evs e hx =>
    intro ev h
    simp only [loopGo, hx] at h
    have h2 : ev ∈ (addText o prm comb t).1 := by rw [hx]; exact h
    rcases addText_events h2 with h | h
    · exact Or.inl h
    · exact Or.inr (Or.inr h)
  | case4 comb t d rest evs comb1 hx sil p ih =>
    intro ev h
    simp only [loopGo, hx] at h
    rcases List.mem_append.mp h with h | h
    · rcases List.mem_append.mp h with h | h
      · have h2 : ev ∈ (addText o prm comb t).1 := by rw [hx]; exact h
        rcases addText_events h2 with h | h
        · exact Or.inl h
        · exact Or.inr (Or.inr h)
      · rcases List.mem_cons.mp h with h | h
        · exact Or.inr (Or.inl ⟨_, h⟩)
        · exact Or.inr (Or.inr (pdAppend_events h))
    · exact ih ev h

theorem addText_pres_some {o : Oracles} {prm : Option Unit} {comb : Option AudioSeg}
    {t : List Char} {comb1 : Option AudioSeg} (hc : comb.isSome = true)
    (h : (addText o prm comb t).2 = Except.ok comb1) : comb1.isSome = true := by
  have hfull : addText o prm comb t = ((addText o prm comb t).1, Except.ok comb1) := by
    rw [← h]
  rcases addText_cases hfull with ⟨_, h1, _⟩ | ⟨_, fr, _, _, h1⟩ | ⟨_, fr, c, _, _, h1⟩
  · rw [h1]; exact hc
  · rw [h1]; rfl
  · rw [h1]; rfl

/-- Once the accumulator holds audio it never returns to `None`: the loop's
result from a non-`None` accumulator is non-`None`. -/
theorem loopGo_pres_some (o : Oracles) (prm : Option Unit) :
    ∀ comb ps, comb.isSome = true → ∀ r,
      (loopGo o prm comb ps).2 = Except.ok r → r.isSome = true := by
  intro comb ps
  induction comb, ps using loopGo.induct o prm with
  | case1 comb =>
    intro hc r h
    have h2 : (Except.ok comb : Except Nat (Option AudioSeg)) = Except.ok r := h
    injection h2 with h2
    rw [← h2]; exact hc
  | case2 comb t =>
    intro hc r h
    exact addText_pres_some hc h
  | case3 comb t d rest evs e hx =>
    intro hc r h
    simp only [loopGo, hx] at h
    exact absurd h (by simp)
  | case4 comb t d rest evs comb1 hx sil p ih =>
    intro hc r h
    simp only [loopGo, hx] at h
    exact ih rfl r h

/-- A single literal run with non-empty stripped text yields a non-`None`
accumulator (the synthesised audio). -/
theorem loopGo_none_single (o : Oracles) (prm : Option Unit) {t : List Char}
    (hne : pyStrip t ≠ []) :
    ∀ r, (loopGo o prm none [t]).2 = Except.ok r → r.isSome = true := by
  intro r h
  have h2 : (addText o prm none t).2 = Except.ok r := h
  have hfull : addText o prm none t = ((addText o prm none t).1, Except.ok r) := by
    rw [← h2]
  rcases addText_cases hfull with ⟨h0, _, _⟩ | ⟨_, fr, _, _, h1⟩ | ⟨_, fr, c, _, _, h1⟩
  · exact absurd h0 hne
  · rw [h1]; rfl
  · rw [h1]; rfl

/-- Any part list with a captured duration yields a non-`None` accumulator:
the silence append initialises the accumulator if needed. -/
theorem loopGo_none_pair (o : Oracles) (prm : Option Unit) (t d : List Char)
    (rest : List (List Char)) :
    ∀ r, (loopGo o prm none (t :: d :: rest)).2 = Except.ok r → r.isSome = true := by
  intro r h
  rcases hx : addText o prm none t with ⟨evs, res⟩
  cases res with
  | error e =>
    rw [show (loopGo o prm none (t :: d :: rest)).2 = Except.error e by
      simp only [loopGo, hx]] at h
    simp at h
  | ok comb1 =>
    rw [show (loopGo o prm none (t :: d :: rest)).2 =
        (loopGo o prm
          (some (pdAppend (comb1.getD pdEmpty) (pdSilent (msOfCap d))).1) rest).2 by
      simp only [loopGo, hx]] at h
    exact loopGo_pres_some o prm _ rest Option.isSome_some r h

theorem runBody_no_noSpeak {o : Oracles} {txt : List Char} {prm : Option Unit}
    {pre : List Ev} {tm : Bool}
    (h : ∀ r, (loopGo o prm none (splitParts txt)).2 = Except.ok r → r.isSome = true) :
    isNoSpeakErr (runBody o txt prm pre tm) = false := by
  unfold runBody
  cases hr : (loopGo o prm none (splitParts txt)).2 with
  | error e => simp [hr, isNoSpeakErr]
  | ok ro =>
    cases ro with
    | none => exact absurd (h none hr) (by simp)
    | some c =>
      cases he : o.exportErr with
      | none => simp [hr, he, isNoSpeakErr]
      | some e => simp [hr, he, isNoSpeakErr]

/-- C9: the handler's `No speakable text found after parsing pause markers`
branch is dead code — no request, whatever its input and whatever the
external calls do, ever returns that error, because a non-empty normalized
text always leaves the accumulator non-`None` (marker-free text is
synthesised, and any marker appends silence even with no text). -/
theorem c9_theorem (o : Oracles) (inp : JobInput) :
    isNoSpeakErr (handler o inp) = false := by
  by_cases ht : sanitiseText (inp.text.getD []) = []
  · simp only [handler, ht, if_true, if_pos]
    decide
  · have hkey : ∀ (prm : Option Unit) (pre : List Ev) (tm : Bool),
        isNoSpeakErr (runBody o (sanitiseText (inp.text.getD [])) prm pre tm) = false := by
      intro prm pre tm
      apply runBody_no_noSpeak
      cases hsp : splitParts (sanitiseText (inp.text.getD [])) with
      | nil => exact absurd hsp (splitAux_ne_nil _ _ _)
      | cons u tail =>
        cases tail with
        | nil =>
          have hu : u = sanitiseText (inp.text.getD []) := by
            have h2 := splitAux_singleton _ [] _ u hsp
            simpa using h2
          subst hu
          intro r h
          exact loopGo_none_single o prm (by rw [sanitise_stripped]; exact ht) r h
        | cons d rest =>
          intro r h
          exact loopGo_none_pair o prm u d rest r h
    simp only [handler]
    rw [if_neg ht]
    split
    · exact hkey none [] false
    · split
      · exact hkey none [] false
      · split
        · rfl
        · exact hkey (some ()) _ true

theorem runBody_events_eq (o : Oracles) (txt : List Char) (prm : Option Unit)
    (pre : List Ev) (tm : Bool) :
    (runBody o txt prm pre tm).events =
      pre ++ (loopGo o prm none (splitParts txt)).1 ++
        (if tm then [Ev.tempDelete] else []) ++
        (match (loopGo o prm none (splitParts txt)).2 with
         | Except.ok (some _) => [Ev.encodeMp3]
         | _ => []) := by
  unfold runBody
  cases hr : (loopGo o prm none (splitParts txt)).2 with
  | error e => simp [hr]
  | ok ro =>
    cases ro with
    | none => simp [hr]
    | some c => cases he : o.exportErr <;> simp [hr, he]

/-- C10: a present but empty `audio_prompt_url` behaves exactly like an
absent one — the two runs are equal — and on that path no temporary file is
created, no fetch is attempted, and every synthesis call carries no voice
reference. -/
theorem c10_theorem (o : Oracles) (tx : Option (List Char)) :
    handler o ⟨tx, some []⟩ = handler o ⟨tx, none⟩ ∧
    (handler o ⟨tx, none⟩).events.all noFetchNoPromptEv = true := by
  constructor
  · by_cases ht : sanitiseText (tx.getD []) = [] <;> simp [handler, ht]
  · by_cases ht : sanitiseText (tx.getD []) = []
    · simp [handler, ht]
    · have he : handler o ⟨tx, none⟩ =
          runBody o (sanitiseText (tx.getD [])) none [] false := by
        simp [handler, ht]
      rw [he, List.all_eq_true]
      intro ev hev
      rw [runBody_events_eq] at hev
      simp only [List.nil_append, List.mem_append] at hev
      rcases hev with (hev | hev) | hev
      · rcases loopGo_events o none none _ ev hev with ⟨tt, h⟩ | ⟨ms, h⟩ | ⟨x, y, h⟩ <;>
          subst h <;> rfl
      · simp at hev
      · rcases hx : (loopGo o none none (splitParts (sanitiseText (tx.getD [])))).2 with e | ro
        · rw [hx] at hev; simp at hev
        · rw [hx] at hev
          cases ro with
          | none => simp at hev
          | some c =>
            simp only [List.mem_singleton] at hev
            subst hev; rfl

theorem planPos_add_two : ∀ (ps : List (List Char)) (i : Nat),
    planPos (i + 2) ps = planPos i ps := by
  intro ps
  induction ps with
  | nil => intro i; rfl
  | cons q qs ih =>
    intro i
    simp only [planPos, Nat.add_mod_right]
    rw [show i + 2 + 1 = i + 1 + 2 by omega, ih (i + 1)]

theorem planPos_two (ps : List (List Char)) : planPos 2 ps = planPos 0 ps :=
  planPos_add_two ps 0

/-- C6, counterexample: the captured value 64.1 is converted by the code's
double-precision arithmetic to 64099 ms, not the 64100 ms of "value × 1000
truncated to an integer" — `float("64.1") * 1000` is 64099.99999999999,
and `int` truncates. -/
theorem c6_counterexample :
    msOfCap (str "64.1") = 64099 ∧
    msOfCapSpec (str "64.1") = 64100 ∧
    (msOfCap (str "64.1") == msOfCapSpec (str "64.1")) = false ∧
    segmentPlan (str "a [pause:64.1] b") =
      [SegUnit.text (str "a"), SegUnit.silence 64099,
       SegUnit.text (str "b")] := by decide

/-- C6, amended: segmenting `Hello [pause:2] world` yields exactly
`[TextUnit "Hello", SilenceUnit 2000 ms, TextUnit "world"]`; in general the
plan built by the loop equals its positional reading — literal runs (even
positions) trimmed and kept when non-empty, captured marker values (odd
positions) converted by the program's double-precision arithmetic,
`int(float(capture) * 1000)`, which equals value × 1000 truncated to an
integer on captures such as the examples (2 → 2000 ms, 1.5 → 1500 ms) but
can fall 1 ms short on captures like 64.1. -/
theorem c6_theorem :
    segmentPlan (str "Hello [pause:2] world") =
      [SegUnit.text (str "Hello"), SegUnit.silence 2000,
       SegUnit.text (str "world")] ∧
    msOfCap (str "2") = msOfCapSpec (str "2") ∧
    msOfCap (str "1.5") = msOfCapSpec (str "1.5") ∧
    ∀ ps, planGo ps = planPos 0 ps := by
  refine ⟨by decide, by decide, by decide, ?_⟩
  intro ps
  induction ps using planGo.induct with
  | case1 => rfl
  | case2 t h => simp [planGo, planPos, h]
  | case3 t h => simp [planGo, planPos, h]
  | case4 t d rest ih => simp [planGo, planPos, planPos_two, ih]

/-- C1, counterexample: the pure-marker input `[pause:1][pause:1.5]` does
not produce a validation error — the handler returns a success payload of
pure silence (2500 ms at 11025 Hz) with no synthesis call. -/
theorem c1_counterexample :
    handler oracles0 ⟨some (str "[pause:1][pause:1.5]"), none⟩ =
      ⟨Outcome.ok ⟨11025, 27562⟩ 24000,
        [Ev.mkSilence 11025 1000, Ev.resample 1 11025,
         Ev.mkSilence 11025 1500, Ev.encodeMp3], false⟩ := by decide

/-- C1, amended: an input consisting only of pause markers yields zero
`TextUnit`s, yet the handler does not return the `no speakable text`
validation error — each marker still appends silence, so (whatever the
synthesis and fetch oracles do, since neither is consulted) the handler
returns a pure-silence success payload. -/
theorem c1_theorem (f : List Char → Except Nat Unit)
    (sy : List Char → Option Unit → Except Nat Nat) :
    (segmentPlan (sanitiseText (str "[pause:1][pause:1.5]")) =
      [SegUnit.silence 1000, SegUnit.silence 1500]) ∧
    handler ⟨f, sy, none, 24000⟩ ⟨some (str "[pause:1][pause:1.5]"), none⟩ =
      ⟨Outcome.ok ⟨11025, 27562⟩ 24000,
        [Ev.mkSilence 11025 1000, Ev.resample 1 11025,
         Ev.mkSilence 11025 1500, Ev.encodeMp3], false⟩ :=
  ⟨by decide, rfl⟩

/-- C2: when the voice-prompt download itself raises, the temporary file
created by `NamedTemporaryFile(delete=False)` survives the request —
`prompt_path` was never assigned, so the `finally` block deletes nothing —
while on a successful download the file is deleted on completion.  The
first conjunct exhibits the leak the claim rules out. -/
theorem c2_theorem :
    handler oraclesF ⟨some (str "Hi"), some (str "http://h/a.wav")⟩ =
      ⟨Outcome.exc 7, [Ev.tempCreate, Ev.fetchTry (str "http://h/a.wav")], true⟩ ∧
    handler oracles0 ⟨some (str "Hi"), some (str "http://h/a.wav")⟩ =
      ⟨Outcome.ok ⟨24000, 100⟩ 24000,
        [Ev.tempCreate, Ev.fetchTry (str "http://h/a.wav"),
         Ev.synthCall (str "Hi") (some ()), Ev.tempDelete, Ev.encodeMp3],
        false⟩ := by decide

theorem pdAppend_filterMap (a b : AudioSeg) :
    (pdAppend a b).2.filterMap evUnit = [] := by
  simp only [pdAppend, setRate]
  split_ifs <;> rfl

/-- The assembly loop realises the segment plan: on any successful run, the
plan units witnessed by the loop's event trace — synthesis calls and
silence generations, in order — are exactly `planGo` of the parts list.
This ties `segmentPlan` to the handler's loop (lines 120–134). -/
theorem loopGo_plan (o : Oracles) (prm : Option Unit) :
    ∀ comb ps, ∀ r, (loopGo o prm comb ps).2 = Except.ok r →
      (loopGo o prm comb ps).1.filterMap evUnit = planGo ps := by
  intro comb ps
  induction comb, ps using loopGo.induct o prm with
  | case1 comb => intro r _; rfl
  | case2 comb t =>
    intro r hc
    have hc2 : (addText o prm comb t).2 = Except.ok r := hc
    have hfull : addText o prm comb t =
        ((addText o prm comb t).1, Except.ok r) := by
      rw [← hc2]
    show (addText o prm comb t).1.filterMap evUnit = planGo [t]
    rcases addText_cases hfull with ⟨hstr, _, h2⟩ | ⟨hstr, fr, h2, _, _⟩ |
        ⟨hstr, fr, c, _, h2, _⟩
    · rw [h2]
      simp [planGo, hstr]
    · rw [h2]
      simp [planGo, hstr, evUnit]
    · rw [h2]
      simp only [List.filterMap_cons, evUnit, pdAppend_filterMap]
      simp [planGo, hstr]
  | case3 comb t d rest evs e hx =>
    intro r hc
    simp only [loopGo, hx] at hc
    exact absurd hc (by simp)
  | case4 comb t d rest evs comb1 hx sil p ih =>
    intro r hc
    simp only [loopGo, hx] at hc ⊢
    have hrec := ih r hc
    have hevs : evs.filterMap evUnit =
        (if pyStrip t = [] then [] else [SegUnit.text (pyStrip t)]) := by
      rcases addText_cases hx with ⟨hstr, _, h2⟩ | ⟨hstr, fr, h2, _, _⟩ |
          ⟨hstr, fr, c, _, h2, _⟩
      · rw [h2]
        simp [hstr]
      · rw [h2]
        simp [hstr, evUnit]
      · rw [h2]
        simp only [List.filterMap_cons, evUnit, pdAppend_filterMap]
        simp [hstr]
    simp [List.filterMap_append, List.filterMap_cons, pdAppend_filterMap,
      hrec, hevs, evUnit, planGo]
